import Mathlib

/-!
Shallow embedding of `circulo/metrics/cover.py`: per-cluster quality metrics
for an overlapping vertex cover of a graph, and proofs about them.

Python floats are modelled as `Option ℚ` where `none` stands for the NaN
sentinel; a Python `ZeroDivisionError` (or any raised exception) is modelled
by an outer `Option` on the whole result, so each metric function returns
`Option (List _)` (`none` = the call raises).
-/

namespace Circulo

/-- An edge of the igraph graph, identified by its endpoint indices
(`edge.source`, `edge.target` in the Python code). -/
structure Edge where
  src : Nat
  tgt : Nat
deriving DecidableEq

/-- The graph collaborator: vertex count, edge list, directedness flag
(igraph `vcount()`, `es()`, `is_directed()`). -/
structure Graph where
  n : Nat
  edges : List Edge
  directed : Bool

/-- igraph `ecount()`. -/
def Graph.ecount (g : Graph) : Nat := g.edges.length

/-- igraph `degree()` of one vertex: every incident edge endpoint counts,
so a self-loop contributes 2 (igraph's default `loops=True`). -/
def Graph.degree (g : Graph) (v : Nat) : Nat :=
  (g.edges.map (fun e => (if e.src = v then 1 else 0) + (if e.tgt = v then 1 else 0))).sum

/-- A vertex cover: an ordered list of clusters, each a list of vertex ids
(igraph `VertexCover`). -/
structure Cover where
  clusters : List (List Nat)

/-- Number of clusters, `len(cover)`. -/
def Cover.k (cov : Cover) : Nat := cov.clusters.length

/-- Cluster `i` as a vertex list. -/
def Cover.cluster (cov : Cover) (i : Nat) : List Nat := cov.clusters.getD i []

/-- `cover.size(i)`: number of vertices of cluster `i`. -/
def Cover.size (cov : Cover) (i : Nat) : Nat := (cov.cluster i).length

/-- `cover.membership[v]`: the (ascending) list of cluster ids containing
vertex `v`, derived from the cluster sets. -/
def Cover.membership (cov : Cover) (v : Nat) : List Nat :=
  (List.range cov.k).filter (fun c => v ∈ cov.cluster c)

/-- `cover.crossing()` for one edge (igraph): an edge crosses iff its two
endpoints' cluster-membership lists are not identical. -/
def Cover.crossing (cov : Cover) (e : Edge) : Bool :=
  decide (cov.membership e.src ≠ cov.membership e.tgt)

/-- `cover.subgraph(i)`: the induced subgraph of cluster `i`; vertices are
relabelled by their position in the cluster list and only edges with both
endpoints inside the cluster survive. -/
def inducedSubgraph (g : Graph) (cov : Cover) (i : Nat) : Graph :=
  { n := cov.size i
    edges := (g.edges.filter (fun e =>
        decide (e.src ∈ cov.cluster i) && decide (e.tgt ∈ cov.cluster i))).map
      (fun e => ⟨(cov.cluster i).indexOf e.src, (cov.cluster i).indexOf e.tgt⟩)
    directed := g.directed }

/-- The membership lists collected for a crossing edge by `external_edges`:
the source vertex's list, plus the target vertex's list iff the graph is
undirected. -/
def collected (g : Graph) (cov : Cover) (e : Edge) : List (List Nat) :=
  [cov.membership e.src] ++ (if g.directed then [] else [cov.membership e.tgt])

/-- One Python statement `array_of_sets[cluster_id] += [edge]`. -/
def appendEdge (e : Edge) (arr : List (List Edge)) (c : Nat) : List (List Edge) :=
  arr.set c ((arr.getD c []) ++ [e])

/-- `external_edges(cover)`: iterate over the crossing edges (in edge order),
collect the relevant membership lists, and append the edge to the array slot
of every cluster id occurring in a collected list. -/
def externalEdges (g : Graph) (cov : Cover) : List (List Edge) :=
  (g.edges.filter (fun e => cov.crossing e)).foldl
    (fun arr e => (collected g cov e).foldl (fun arr2 ms => ms.foldl (appendEdge e) arr2) arr)
    (List.replicate cov.k [])

/-- Boundary-edge list of cluster `c`, i.e. `external_edges(cover)[c]`. -/
def extList (g : Graph) (cov : Cover) (c : Nat) : List Edge :=
  (externalEdges g cov).getD c []

/-- The contribution of one crossing edge to cluster `c`'s boundary list, as
described by the spec: the edge is appended once for the source vertex if `c`
is in the source's membership list, and once more for the target vertex iff
the graph is undirected and `c` is in the target's membership list. -/
def edgeContrib (g : Graph) (cov : Cover) (c : Nat) (e : Edge) : List Edge :=
  (if c ∈ cov.membership e.src then [e] else []) ++
    (if g.directed then [] else if c ∈ cov.membership e.tgt then [e] else [])

/-- The spec's description of the boundary-edge collection of cluster `c`:
over the crossing edges in order, each contributes `edgeContrib`. -/
def specBoundary (g : Graph) (cov : Cover) (c : Nat) : List Edge :=
  ((g.edges.filter (fun e => cov.crossing e)).map (edgeContrib g cov c)).flatten

/-- Python true division `a / b`: raises `ZeroDivisionError` (modelled as
`none`) when `b = 0`. -/
def pydiv (a b : ℚ) : Option ℚ := if b = 0 then none else some (a / b)

/-- Python float comparison `a > b` where `none` is NaN: any comparison
involving NaN is `False`. -/
def pygt (a b : Option ℚ) : Bool :=
  match a, b with
  | some x, some y => decide (y < x)
  | _, _ => false

/-- Python `max` over a list of floats: raises on `[]`, otherwise keeps the
current maximum and replaces it only when a later item compares greater
(so a NaN in first position is never replaced). -/
def pymax : List (Option ℚ) → Option (Option ℚ)
  | [] => none
  | x :: xs => some (xs.foldl (fun acc y => if pygt y acc then y else acc) x)

/-- scipy `nansum`: sum of a float list treating NaN as 0. The result is a
numpy scalar (`np.float64`), not a plain Python float. -/
def nansum (l : List (Option ℚ)) : ℚ := (l.map (fun x => x.getD 0)).sum

/-- A numpy float scalar: a finite value, NaN, or a signed infinity.
Dividing an `np.float64` by zero does not raise `ZeroDivisionError`: numpy
emits a RuntimeWarning and yields NaN for 0/0 or a signed infinity
otherwise. -/
inductive NpVal where
  | fin (q : ℚ)
  | nan
  | inf (pos : Bool)
deriving DecidableEq

/-- numpy scalar division: the finite quotient when the divisor is nonzero,
NaN for 0/0, and a signed infinity for `x/0` with `x ≠ 0` (no exception). -/
def npdiv (a b : ℚ) : NpVal :=
  if b = 0 then (if a = 0 then NpVal.nan else NpVal.inf (decide (0 < a)))
  else NpVal.fin (a / b)

/-- Build one result per cluster index, propagating a raised exception
(`none`) from any single cluster to the whole call, exactly as a Python
`for i in range(len(cover)): rv += [f(i)]` loop propagates exceptions. -/
def mapMO {α β : Type} (f : α → Option β) : List α → Option (List β)
  | [] => some []
  | a :: as =>
    match f a, mapMO f as with
    | some b, some bs => some (b :: bs)
    | _, _ => none

/-- `expansion(cover)`: `len(external_edges[i]) / size(i)` per cluster. -/
def expansion (g : Graph) (cov : Cover) : Option (List ℚ) :=
  mapMO (fun i => pydiv ((extList g cov i).length : ℚ) (cov.size i : ℚ))
    (List.range cov.k)

/-- `cut_ratio(cover)`: `len(external_edges[i]) / (size(i)*(N - size(i)))`
per cluster. -/
def cutRatio (g : Graph) (cov : Cover) : Option (List ℚ) :=
  mapMO (fun i => pydiv ((extList g cov i).length : ℚ)
      ((cov.size i : ℚ) * ((g.n : ℚ) - (cov.size i : ℚ))))
    (List.range cov.k)

/-- `conductance(cover)`: `ext(i) / (2*int(i) + ext(i))` per cluster, where
`int(i)` is the induced subgraph's edge count. -/
def conductance (g : Graph) (cov : Cover) : Option (List ℚ) :=
  mapMO (fun i => pydiv ((extList g cov i).length : ℚ)
      (2 * ((inducedSubgraph g cov i).ecount : ℚ) + (extList g cov i).length))
    (List.range cov.k)

/-- `separability(cover)`: `int(i) / ext(i)` per cluster. -/
def separability (g : Graph) (cov : Cover) : Option (List ℚ) :=
  mapMO (fun i => pydiv (((inducedSubgraph g cov i).ecount : ℚ))
      ((extList g cov i).length : ℚ))
    (List.range cov.k)

/-- `normalized_cut(cover)`: starts from the conductance list and adds
`ext(i) / (2*(E - int(i)) + ext(i))` to entry `i`. -/
def normalizedCut (g : Graph) (cov : Cover) : Option (List ℚ) :=
  match conductance g cov with
  | none => none
  | some rv =>
    mapMO (fun i =>
        (pydiv ((extList g cov i).length : ℚ)
          (2 * ((g.ecount : ℚ) - ((inducedSubgraph g cov i).ecount : ℚ)) +
            (extList g cov i).length)).map
          (fun t => rv.getD i 0 + t))
      (List.range cov.k)

/-- `edge.source if i in cover.membership[edge.source] else edge.target`:
the single vertex credited with a boundary edge of cluster `i`. -/
def attribNode (cov : Cover) (i : Nat) (e : Edge) : Nat :=
  if i ∈ cov.membership e.src then e.src else e.tgt

/-- `ext_edge_per_node[v]` after the attribution loop of the ODF functions:
how many entries of cluster `i`'s boundary list are credited to vertex `v`. -/
def extEdgePerNode (g : Graph) (cov : Cover) (i : Nat) (v : Nat) : Nat :=
  ((extList g cov i).filter (fun e => decide (attribNode cov i e = v))).length

/-- The `ratios` list of the ODF functions: for every graph vertex, its
boundary count over its total degree, or NaN for a degree-0 vertex. -/
def odfRatios (g : Graph) (cov : Cover) (i : Nat) : List (Option ℚ) :=
  (List.range g.n).map (fun v =>
    if g.degree v ≠ 0 then some ((extEdgePerNode g cov i v : ℚ) / (g.degree v : ℚ))
    else none)

/-- `maximum_out_degree_fraction(cover)`: Python `max` of the ratios list
per cluster (the per-cluster value itself can be the NaN sentinel). -/
def maximumOutDegreeFraction (g : Graph) (cov : Cover) : Option (List (Option ℚ)) :=
  mapMO (fun i => pymax (odfRatios g cov i)) (List.range cov.k)

/-- `average_out_degree_fraction(cover)`: `nansum(ratios) / vcount(i)` per
cluster. `nansum` returns an `np.float64`, so the division follows numpy
scalar semantics and never raises: the call always returns a list of numpy
floats (NaN for an empty cluster's 0/0). -/
def averageOutDegreeFraction (g : Graph) (cov : Cover) : List NpVal :=
  (List.range cov.k).map (fun i =>
    npdiv (nansum (odfRatios g cov i)) ((inducedSubgraph g cov i).n : ℚ))

/-- `flake_out_degree_fraction(cover)`: the number of vertices whose boundary
count strictly exceeds half their degree, over `vcount(i)`, per cluster. -/
def flakeOutDegreeFraction (g : Graph) (cov : Cover) : Option (List ℚ) :=
  mapMO (fun i => pydiv
      (((List.range g.n).filter (fun v =>
          decide ((g.degree v : ℚ) / 2 < (extEdgePerNode g cov i v : ℚ)))).length : ℚ)
      ((inducedSubgraph g cov i).n : ℚ))
    (List.range cov.k)

/-- Modelled from the spec: the graph collaborator's global degree-statistics
summary (`circulo/metrics/graph.py`, not part of this source tree) — at least
the median of the degree sequence. Median of a sorted sequence: middle
element for odd length, mean of the two middle elements for even length. -/
def degreeMedian (g : Graph) : ℚ :=
  let s := ((List.range g.n).map g.degree).mergeSort (fun a b => a ≤ b)
  if g.n = 0 then 0
  else if g.n % 2 = 1 then (s.getD (g.n / 2) 0 : ℚ)
  else ((s.getD (g.n / 2 - 1) 0 : ℚ) + (s.getD (g.n / 2) 0 : ℚ)) / 2

/-- `fomd(cover)`: fraction of cluster `i`'s vertices whose internal degree
(degree in the induced subgraph) strictly exceeds the graph's median degree. -/
def fomd (g : Graph) (cov : Cover) (median : ℚ) : Option (List ℚ) :=
  mapMO (fun i =>
      let sg := inducedSubgraph g cov i
      pydiv ((((List.range sg.n).map sg.degree).filter
          (fun d => decide (median < (d : ℚ)))).length : ℚ) (sg.n : ℚ))
    (List.range cov.k)

/-- Modelled from the spec: the graph collaborator's own metrics record
(`graph.compute_metrics`, not part of this source tree) — the global
degree-statistics summary (minimum, maximum, mean, median). -/
structure GraphMetrics where
  minDeg : Nat
  maxDeg : Nat
  meanDeg : ℚ
  medianDeg : ℚ

/-- Modelled from the spec: computing a graph's degree-statistics record. -/
def graphMetricsOf (g : Graph) : GraphMetrics :=
  { minDeg := (((List.range g.n).map g.degree).min?).getD 0
    maxDeg := (((List.range g.n).map g.degree).max?).getD 0
    meanDeg := if g.n = 0 then 0 else (((List.range g.n).map g.degree).sum : ℚ) / (g.n : ℚ)
    medianDeg := degreeMedian g }

/-- Modelled from the spec: `graph.compute_metrics(refresh=False)` — reuse
the cached metrics record when present, otherwise compute and attach it.
Returns the record in force together with the updated cache. -/
def graphComputeMetrics (g : Graph) (cache : Option GraphMetrics) :
    GraphMetrics × Option GraphMetrics :=
  match cache with
  | some m => (m, some m)
  | none => (graphMetricsOf g, some (graphMetricsOf g))

/-- The report assembled by `compute_metrics(cover)`: one value per cluster
for each of the nine metrics, plus the per-cluster subgraph metric records
nested under the Subgraphs key. -/
structure MetricsReport where
  fomdV : List ℚ
  expansionV : List ℚ
  cutRatioV : List ℚ
  conductanceV : List ℚ
  normalizedCutV : List ℚ
  maxOdfV : List (Option ℚ)
  avgOdfV : List NpVal
  flakeOdfV : List ℚ
  separabilityV : List ℚ
  subgraphsV : List GraphMetrics

/-- `compute_metrics(cover)`: refresh the graph's cached metrics record with
`refresh=False`, compute all nine per-cluster metric lists (any raised
exception aborts the whole call), and attach the per-cluster subgraph metric
records. Returns the report (or `none` if a calculator raised) and the
graph's updated metrics cache. -/
def computeMetrics (g : Graph) (cov : Cover) (cache : Option GraphMetrics) :
    Option MetricsReport × Option GraphMetrics :=
  let gm := graphComputeMetrics g cache
  let report :=
    match fomd g cov gm.1.medianDeg, expansion g cov, cutRatio g cov,
        conductance g cov, normalizedCut g cov, maximumOutDegreeFraction g cov,
        flakeOutDegreeFraction g cov, separability g cov with
    | some a, some b, some c, some d, some e, some f, some q, some r =>
      some { fomdV := a, expansionV := b, cutRatioV := c, conductanceV := d
             normalizedCutV := e, maxOdfV := f
             avgOdfV := averageOutDegreeFraction g cov, flakeOdfV := q
             separabilityV := r
             subgraphsV := (List.range cov.k).map
               (fun i => graphMetricsOf (inducedSubgraph g cov i)) }
    | _, _, _, _, _, _, _, _ => none
  (report, gm.2)

/-- Number of graph vertices that are members of cluster `i`. -/
def memberCount (g : Graph) (cov : Cover) (i : Nat) : Nat :=
  ((List.range g.n).filter (fun v => decide (i ∈ cov.membership v))).length

/-- The cover consisting of a single cluster holding the entire vertex set. -/
def fullCover (g : Graph) : Cover := ⟨[List.range g.n]⟩

/-- Undirected triangle graph on vertices 0, 1, 2. -/
def gTri : Graph := ⟨3, [⟨0, 1⟩, ⟨0, 2⟩, ⟨1, 2⟩], false⟩

/-- Two overlapping clusters on the triangle. -/
def covTri : Cover := ⟨[[0, 1], [1, 2]]⟩

/-- A single isolated vertex. -/
def gSingle : Graph := ⟨1, [], false⟩

/-- The isolated vertex as its own cluster. -/
def covSingle : Cover := ⟨[[0]]⟩

/-- The empty graph. -/
def gNone : Graph := ⟨0, [], false⟩

/-- A single (empty) cluster over the empty graph. -/
def covNone : Cover := ⟨[[]]⟩

/-- An isolated vertex 0 plus one edge between vertices 1 and 2. -/
def gIso : Graph := ⟨3, [⟨1, 2⟩], false⟩

/-- Two singleton clusters on `gIso`. -/
def covIso : Cover := ⟨[[1], [2]]⟩

/-- Path graph 0 - 1 - 2. -/
def gPath3 : Graph := ⟨3, [⟨0, 1⟩, ⟨1, 2⟩], false⟩

/-- Overlapping clusters on the path: the edge cluster and a singleton. -/
def covPath3 : Cover := ⟨[[0, 1], [0]]⟩

/-- A single undirected edge on two vertices. -/
def gEdge2 : Graph := ⟨2, [⟨0, 1⟩], false⟩

/-! ### Basic facts about membership lists -/

theorem mem_membership {cov : Cover} {c v : Nat} :
    c ∈ cov.membership v ↔ c < cov.k ∧ v ∈ cov.cluster c := by
  simp [Cover.membership, List.mem_filter, List.mem_range]

theorem membership_nodup (cov : Cover) (v : Nat) : (cov.membership v).Nodup :=
  (List.nodup_range _).filter _

theorem membership_lt {cov : Cover} {c v : Nat} (h : c ∈ cov.membership v) : c < cov.k :=
  (mem_membership.1 h).1

theorem count_membership (cov : Cover) (v j : Nat) :
    (cov.membership v).count j = if j ∈ cov.membership v then 1 else 0 := by
  by_cases h : j ∈ cov.membership v
  · simp [h, List.count_eq_one_of_mem (membership_nodup cov v) h]
  · simp [h, List.count_eq_zero.2 h]

/-! ### `external_edges` computes the spec's boundary collections -/

theorem appendEdge_length (e : Edge) (arr : List (List Edge)) (c : Nat) :
    (appendEdge e arr c).length = arr.length := by
  simp [appendEdge]

theorem appendEdge_getD (e : Edge) (arr : List (List Edge)) {c : Nat} (j : Nat)
    (hc : c < arr.length) :
    (appendEdge e arr c).getD j [] =
      if c = j then arr.getD j [] ++ [e] else arr.getD j [] := by
  unfold appendEdge
  by_cases h : c = j
  · subst h
    rw [List.getD_eq_getElem?_getD, List.getElem?_set_eq_of_lt _ hc]
    simp
  · rw [List.getD_eq_getElem?_getD, List.getElem?_set_ne h, ← List.getD_eq_getElem?_getD]
    simp [h]

theorem foldl_appendEdge_length (e : Edge) :
    ∀ (ms : List Nat) (arr : List (List Edge)),
      (ms.foldl (appendEdge e) arr).length = arr.length
  | [], _ => rfl
  | c :: ms, arr => by
    rw [List.foldl_cons, foldl_appendEdge_length e ms, appendEdge_length]

theorem foldl_appendEdge_getD (e : Edge) :
    ∀ (ms : List Nat) (arr : List (List Edge)) (j : Nat), (∀ c ∈ ms, c < arr.length) →
      (ms.foldl (appendEdge e) arr).getD j [] =
        arr.getD j [] ++ List.replicate (ms.count j) e
  | [], arr, j, _ => by simp
  | c :: ms, arr, j, hb => by
    rw [List.foldl_cons,
      foldl_appendEdge_getD e ms (appendEdge e arr c) j
        (fun c' hc' => (appendEdge_length e arr c).symm ▸ hb c' (List.mem_cons_of_mem _ hc')),
      appendEdge_getD e arr j (hb c (List.mem_cons_self c ms)), List.count_cons]
    by_cases h : c = j
    · simp [h, List.replicate_succ, List.append_assoc]
    · simp [h, fun hjc : j = c => h hjc.symm]

/-- Processing a single crossing edge appends exactly `edgeContrib` to every
array slot. -/
theorem edgeStep_getD (g : Graph) (cov : Cover) (e : Edge) (arr : List (List Edge)) (j : Nat)
    (hlen : arr.length = cov.k) :
    ((collected g cov e).foldl (fun a ms => ms.foldl (appendEdge e) a) arr).getD j [] =
      arr.getD j [] ++ edgeContrib g cov j e := by
  have hsrc : ∀ c ∈ cov.membership e.src, c < arr.length :=
    fun c hc => lt_of_lt_of_eq (membership_lt hc) hlen.symm
  cases hd : g.directed
  case false =>
    have hcol : collected g cov e = [cov.membership e.src, cov.membership e.tgt] := by
      simp [collected, hd]
    have hcon : edgeContrib g cov j e =
        (if j ∈ cov.membership e.src then [e] else []) ++
          (if j ∈ cov.membership e.tgt then [e] else []) := by
      simp [edgeContrib, hd]
    have htgt : ∀ c ∈ cov.membership e.tgt,
        c < ((cov.membership e.src).foldl (appendEdge e) arr).length := by
      intro c hc
      rw [foldl_appendEdge_length]
      exact lt_of_lt_of_eq (membership_lt hc) hlen.symm
    rw [hcol, List.foldl_cons, List.foldl_cons, List.foldl_nil,
      foldl_appendEdge_getD e _ _ j htgt, foldl_appendEdge_getD e _ arr j hsrc,
      count_membership, count_membership, hcon, List.append_assoc]
    by_cases h1 : j ∈ cov.membership e.src <;> by_cases h2 : j ∈ cov.membership e.tgt <;>
      simp [h1, h2]
  case true =>
    have hcol : collected g cov e = [cov.membership e.src] := by simp [collected, hd]
    have hcon : edgeContrib g cov j e = (if j ∈ cov.membership e.src then [e] else []) := by
      simp [edgeContrib, hd]
    rw [hcol, List.foldl_cons, List.foldl_nil, foldl_appendEdge_getD e _ arr j hsrc,
      count_membership, hcon]
    by_cases h1 : j ∈ cov.membership e.src <;> simp [h1]

theorem edgeStep_length (g : Graph) (cov : Cover) (e : Edge) (arr : List (List Edge)) :
    ((collected g cov e).foldl (fun a ms => ms.foldl (appendEdge e) a) arr).length =
      arr.length := by
  cases hd : g.directed
  case false =>
    have hcol : collected g cov e = [cov.membership e.src, cov.membership e.tgt] := by
      simp [collected, hd]
    rw [hcol, List.foldl_cons, List.foldl_cons, List.foldl_nil, foldl_appendEdge_length,
      foldl_appendEdge_length]
  case true =>
    have hcol : collected g cov e = [cov.membership e.src] := by simp [collected, hd]
    rw [hcol, List.foldl_cons, List.foldl_nil, foldl_appendEdge_length]

theorem foldl_edgeStep_getD (g : Graph) (cov : Cover) (j : Nat) :
    ∀ (es : List Edge) (arr : List (List Edge)), arr.length = cov.k →
      (es.foldl (fun a e => (collected g cov e).foldl
          (fun a2 ms => ms.foldl (appendEdge e) a2) a) arr).getD j [] =
        arr.getD j [] ++ (es.map (edgeContrib g cov j)).flatten
  | [], arr, _ => by simp
  | e :: es, arr, hlen => by
    rw [List.foldl_cons,
      foldl_edgeStep_getD g cov j es _ ((edgeStep_length g cov e arr).trans hlen),
      edgeStep_getD g cov e arr j hlen]
    simp [List.append_assoc]

theorem foldl_edgeStep_length (g : Graph) (cov : Cover) :
    ∀ (es : List Edge) (arr : List (List Edge)),
      (es.foldl (fun a e => (collected g cov e).foldl
          (fun a2 ms => ms.foldl (appendEdge e) a2) a) arr).length = arr.length
  | [], _ => rfl
  | e :: es, arr => by
    rw [List.foldl_cons, foldl_edgeStep_length g cov es, edgeStep_length]

theorem externalEdges_length (g : Graph) (cov : Cover) :
    (externalEdges g cov).length = cov.k := by
  unfold externalEdges
  rw [foldl_edgeStep_length, List.length_replicate]

theorem extList_eq_specBoundary (g : Graph) (cov : Cover) (j : Nat) :
    extList g cov j = specBoundary g cov j := by
  unfold extList externalEdges specBoundary
  rw [foldl_edgeStep_getD g cov j _ _ (List.length_replicate _ _)]
  have : (List.replicate cov.k ([] : List Edge)).getD j [] = [] := by
    rcases Nat.lt_or_ge j cov.k with h | h
    · rw [List.getD_eq_getElem?_getD, List.getElem?_replicate]
      simp [h]
    · rw [List.getD_eq_default]
      rwa [List.length_replicate]
  rw [this, List.nil_append]

/-! ### Extraction lemmas for `mapMO` and `pydiv` -/

theorem mapMO_some {α β : Type} {f : α → Option β} :
    ∀ {xs : List α} {l : List β}, mapMO f xs = some l →
      l.length = xs.length ∧ ∀ (j : Nat) (d : α) (d' : β), j < xs.length →
        f (xs.getD j d) = some (l.getD j d')
  | [], l, h => by
    simp only [mapMO, Option.some.injEq] at h
    subst h
    exact ⟨rfl, fun j d d' hj => absurd hj (Nat.not_lt_zero j)⟩
  | a :: as, l, h => by
    unfold mapMO at h
    cases hfa : f a with
    | none => rw [hfa] at h; exact absurd h (by simp)
    | some b =>
      rw [hfa] at h
      cases hms : mapMO f as with
      | none => rw [hms] at h; exact absurd h (by simp)
      | some bs =>
        rw [hms] at h
        simp only [Option.some.injEq] at h
        subst h
        refine ⟨by simp [(mapMO_some hms).1], fun j d d' hj => ?_⟩
        cases j with
        | zero => simpa using hfa
        | succ j =>
          rw [List.getD_cons_succ, List.getD_cons_succ]
          exact (mapMO_some hms).2 j d d' (Nat.lt_of_succ_lt_succ hj)

theorem mapMO_range_getD {β : Type} {f : Nat → Option β} {n : Nat} {l : List β}
    (h : mapMO f (List.range n) = some l) {i : Nat} (hi : i < n) (d : β) :
    f i = some (l.getD i d) := by
  have h2 := (mapMO_some h).2 i 0 d (by simpa using hi)
  rwa [List.getD_eq_getElem _ _ (by simpa using hi), List.getElem_range] at h2

theorem mapMO_range_length {β : Type} {f : Nat → Option β} {n : Nat} {l : List β}
    (h : mapMO f (List.range n) = some l) : l.length = n := by
  simpa using (mapMO_some h).1

theorem pydiv_eq_some {a b q : ℚ} : pydiv a b = some q ↔ b ≠ 0 ∧ q = a / b := by
  unfold pydiv
  split_ifs with h <;> simp [h, eq_comm]

theorem getD_map_range {β : Type} (f : Nat → β) {n i : Nat} (hi : i < n) (d : β) :
    ((List.range n).map f).getD i d = f i := by
  rw [List.getD_eq_getElem _ _ (by simpa using hi)]
  simp

/-! ### Membership structure of the boundary collections -/

theorem mem_edgeContrib {g : Graph} {cov : Cover} {i : Nat} {e e' : Edge}
    (h : e ∈ edgeContrib g cov i e') : e = e' := by
  unfold edgeContrib at h
  rw [List.mem_append] at h
  rcases h with h | h <;> split_ifs at h <;> simp_all

theorem mem_specBoundary {g : Graph} {cov : Cover} {i : Nat} {e : Edge}
    (h : e ∈ specBoundary g cov i) :
    cov.crossing e = true ∧
      (i ∈ cov.membership e.src ∨ (g.directed = false ∧ i ∈ cov.membership e.tgt)) := by
  unfold specBoundary at h
  rw [List.mem_flatten] at h
  obtain ⟨l, hl, hel⟩ := h
  rw [List.mem_map] at hl
  obtain ⟨e', he', rfl⟩ := hl
  rw [List.mem_filter] at he'
  have he : e = e' := mem_edgeContrib hel
  subst he
  refine ⟨he'.2, ?_⟩
  unfold edgeContrib at hel
  rw [List.mem_append] at hel
  rcases hel with h1 | h2
  · split_ifs at h1 with hm
    · exact Or.inl hm
    · simp at h1
  · split_ifs at h2 with hd hm
    · simp at h2
    · exact Or.inr ⟨by simpa using hd, hm⟩
    · simp at h2

theorem crossing_ne {cov : Cover} {e : Edge} (h : cov.crossing e = true) : e.src ≠ e.tgt := by
  intro hst
  unfold Cover.crossing at h
  rw [decide_eq_true_eq] at h
  exact h (by rw [hst])

theorem attribNode_mem {g : Graph} {cov : Cover} {i : Nat} {e : Edge}
    (h : e ∈ extList g cov i) : i ∈ cov.membership (attribNode cov i e) := by
  rw [extList_eq_specBoundary] at h
  obtain ⟨-, hm⟩ := mem_specBoundary h
  unfold attribNode
  by_cases hs : i ∈ cov.membership e.src
  · simp [hs]
  · rcases hm with hm | ⟨-, hm⟩
    · exact absurd hm hs
    · simpa [hs]

theorem extEdgePerNode_eq_zero {g : Graph} {cov : Cover} {i v : Nat}
    (h : i ∉ cov.membership v) : extEdgePerNode g cov i v = 0 := by
  unfold extEdgePerNode
  rw [List.length_eq_zero, List.filter_eq_nil_iff]
  intro e he
  simp only [decide_eq_true_eq]
  intro hav
  exact h (hav ▸ attribNode_mem he)

/-! ### Counting bounds on the boundary collections -/

theorem edgeContrib_length_le (g : Graph) (cov : Cover) (i : Nat) (e : Edge) :
    (edgeContrib g cov i e).length ≤ 2 := by
  unfold edgeContrib
  rw [List.length_append]
  have h1 : (if i ∈ cov.membership e.src then [e] else []).length ≤ 1 := by
    split_ifs <;> simp
  have h2 : (if g.directed then []
      else if i ∈ cov.membership e.tgt then [e] else []).length ≤ 1 := by
    split_ifs <;> simp
  omega

theorem sum_le_two_mul_length {α : Type} (l : List α) (f : α → Nat)
    (h : ∀ x ∈ l, f x ≤ 2) : (l.map f).sum ≤ 2 * l.length := by
  induction l with
  | nil => simp
  | cons a as ih =>
    rw [List.map_cons, List.sum_cons, List.length_cons]
    have := h a (List.mem_cons_self a as)
    have := ih (fun x hx => h x (List.mem_cons_of_mem a hx))
    omega

theorem specBoundary_length_le (g : Graph) (cov : Cover) (c : Nat) :
    (specBoundary g cov c).length ≤ 2 * g.ecount := by
  unfold specBoundary
  rw [List.length_flatten, List.map_map]
  calc ((g.edges.filter (fun e => cov.crossing e)).map
        (List.length ∘ edgeContrib g cov c)).sum
      ≤ 2 * (g.edges.filter (fun e => cov.crossing e)).length :=
        sum_le_two_mul_length _ _ (fun x _ => edgeContrib_length_le g cov c x)
    _ ≤ 2 * g.edges.length := by
        have := List.length_filter_le (fun e => cov.crossing e) g.edges
        omega

theorem incident_of_attribNode {cov : Cover} {i v : Nat} {e : Edge}
    (h : attribNode cov i e = v) : e.src = v ∨ e.tgt = v := by
  unfold attribNode at h
  split_ifs at h
  · exact Or.inl h
  · exact Or.inr h

theorem edgeContrib_filter_length_le (g : Graph) (cov : Cover) (i v : Nat) (e : Edge) :
    ((edgeContrib g cov i e).filter (fun x => decide (attribNode cov i x = v))).length ≤
      2 * ((if e.src = v then 1 else 0) + (if e.tgt = v then 1 else 0)) := by
  by_cases hav : attribNode cov i e = v
  · have h1 : (if e.src = v then 1 else 0) + (if e.tgt = v then 1 else 0) ≥ 1 := by
      rcases incident_of_attribNode hav with h | h <;> simp [h]
    have h2 := List.length_filter_le (fun x => decide (attribNode cov i x = v))
      (edgeContrib g cov i e)
    have h3 := edgeContrib_length_le g cov i e
    omega
  · have hnil : (edgeContrib g cov i e).filter
        (fun x => decide (attribNode cov i x = v)) = [] := by
      rw [List.filter_eq_nil_iff]
      intro a ha
      simp only [decide_eq_true_eq]
      intro hv
      exact hav ((mem_edgeContrib ha) ▸ hv)
    rw [hnil]
    simp

/-- Every entry of a cluster's boundary list is credited to a vertex incident
to it, so a vertex collects at most twice its degree in boundary credits. -/
theorem extEdgePerNode_le (g : Graph) (cov : Cover) (i v : Nat) :
    extEdgePerNode g cov i v ≤ 2 * g.degree v := by
  unfold extEdgePerNode
  rw [extList_eq_specBoundary]
  unfold specBoundary
  rw [List.filter_flatten, List.map_map, List.length_flatten, List.map_map]
  unfold Graph.degree
  calc ((g.edges.filter (fun e => cov.crossing e)).map
        (List.length ∘ List.filter (fun x => decide (attribNode cov i x = v)) ∘
          edgeContrib g cov i)).sum
      ≤ ((g.edges.filter (fun e => cov.crossing e)).map
          (fun e => 2 * ((if e.src = v then 1 else 0) + (if e.tgt = v then 1 else 0)))).sum :=
        List.sum_le_sum (fun e _ => edgeContrib_filter_length_le g cov i v e)
    _ ≤ (g.edges.map
          (fun e => 2 * ((if e.src = v then 1 else 0) + (if e.tgt = v then 1 else 0)))).sum :=
        List.Sublist.sum_le_sum
          ((List.filter_sublist g.edges).map _) (fun a _ => Nat.zero_le a)
    _ = 2 * (g.edges.map
          (fun e => (if e.src = v then 1 else 0) + (if e.tgt = v then 1 else 0))).sum :=
        List.sum_map_mul_left _ _ _

theorem memberCount_le_size (g : Graph) (cov : Cover) (i : Nat) :
    memberCount g cov i ≤ cov.size i := by
  have hsub : ((List.range g.n).filter (fun v => decide (i ∈ cov.membership v))) ⊆
      cov.cluster i := by
    intro v hv
    rw [List.mem_filter, decide_eq_true_eq] at hv
    exact (mem_membership.1 hv.2).2
  have hnd := (List.nodup_range g.n).filter
    (fun v => decide (i ∈ cov.membership v))
  exact (List.subperm_of_subset hnd hsub).length_le

theorem sum_indicator_eq_length {p : Nat → Bool} :
    ∀ l : List Nat, (l.map (fun v => if p v then (1 : ℚ) else 0)).sum =
      ((l.filter p).length : ℚ)
  | [] => by simp
  | a :: l => by
    rw [List.map_cons, List.sum_cons, sum_indicator_eq_length l, List.filter_cons]
    by_cases h : p a
    · simp only [h, if_true, List.length_cons]
      push_cast
      ring
    · simp [h]

theorem nansum_odfRatios_nonneg (g : Graph) (cov : Cover) (i : Nat) :
    0 ≤ nansum (odfRatios g cov i) := by
  unfold nansum odfRatios
  rw [List.map_map]
  apply List.sum_nonneg
  intro x hx
  rw [List.mem_map] at hx
  obtain ⟨v, -, rfl⟩ := hx
  simp only [Function.comp]
  split_ifs with h
  · rw [Option.getD_some]
    positivity
  · simp

theorem nansum_odfRatios_le (g : Graph) (cov : Cover) (i : Nat) :
    nansum (odfRatios g cov i) ≤ 2 * (memberCount g cov i : ℚ) := by
  unfold nansum odfRatios memberCount
  rw [List.map_map, ← sum_indicator_eq_length, ← List.sum_map_mul_left]
  apply List.sum_le_sum
  intro v _
  simp only [Function.comp]
  by_cases hd : g.degree v = 0
  · simp only [hd, ne_eq, not_true_eq_false, if_false, Option.getD_none]
    positivity
  · simp only [ne_eq, hd, not_false_eq_true, if_true, Option.getD_some]
    by_cases hm : i ∈ cov.membership v
    · have hp : (2 : ℚ) * (if decide (i ∈ cov.membership v) = true then (1 : ℚ) else 0) = 2 := by
        simp [hm]
      rw [hp, div_le_iff₀ (by positivity)]
      calc (extEdgePerNode g cov i v : ℚ) ≤ ((2 * g.degree v : Nat) : ℚ) := by
            exact_mod_cast extEdgePerNode_le g cov i v
        _ = 2 * (g.degree v : ℚ) := by push_cast; ring
    · simp [hm, extEdgePerNode_eq_zero hm]

theorem flakeCount_le_memberCount (g : Graph) (cov : Cover) (i : Nat) :
    ((List.range g.n).filter (fun v =>
        decide ((g.degree v : ℚ) / 2 < (extEdgePerNode g cov i v : ℚ)))).length ≤
      memberCount g cov i := by
  unfold memberCount
  rw [← List.countP_eq_length_filter, ← List.countP_eq_length_filter]
  apply List.countP_mono_left
  intro v _
  simp only [decide_eq_true_eq]
  intro h
  by_contra hm
  rw [extEdgePerNode_eq_zero hm] at h
  have h0 : (0 : ℚ) ≤ (g.degree v : ℚ) / 2 := by positivity
  push_cast at h
  linarith

/-! ### Claim theorems -/

/-- C1: for every cover over a graph, `external_edges` returns one
boundary-edge collection per cluster built exactly as the spec's algorithm:
an edge is a crossing edge iff its two endpoints' cluster-membership lists
are not identical; every crossing edge is appended to the collection of each
cluster id in the source vertex's membership list, and additionally of each
cluster id in the target vertex's membership list iff the graph is
undirected (`specBoundary` / `edgeContrib` transcribe that description). -/
theorem externalEdges_follows_spec (g : Graph) (cov : Cover) :
    (externalEdges g cov).length = cov.k ∧
      (∀ e : Edge, cov.crossing e = true ↔ cov.membership e.src ≠ cov.membership e.tgt) ∧
      ∀ c : Nat, extList g cov c = specBoundary g cov c :=
  ⟨externalEdges_length g cov, fun e => by simp [Cover.crossing],
    extList_eq_specBoundary g cov⟩

/-- C2 counterexample: on the triangle with overlapping clusters
`{0,1}`, `{1,2}`, cluster 0's boundary list holds 4 entries (edge (0,1) is
appended twice) although the graph has only 3 edges, so
`len(boundary_edges(0)) ≤ E` fails. -/
theorem extList_tri_exceeds_ecount :
    ¬ ((extList gTri covTri 0).length ≤ gTri.ecount) := by decide

/-- C2 (amended): every cluster's boundary list has at most `2 * E` entries
(each crossing edge is appended once per endpoint whose membership list
holds the cluster, hence at most twice), and a self-loop never appears in
any cluster's boundary list. -/
theorem extList_le_two_ecount_and_no_loop (g : Graph) (cov : Cover) (i : Nat) :
    (extList g cov i).length ≤ 2 * g.ecount ∧
      ∀ e ∈ extList g cov i, e.src ≠ e.tgt := by
  constructor
  · rw [extList_eq_specBoundary]
    exact specBoundary_length_le g cov i
  · intro e he
    rw [extList_eq_specBoundary] at he
    exact crossing_ne (mem_specBoundary he).1

/-- Witness for C2 (amended) at the triangle: the bound holds for cluster 0
and the member edge (0,1) is no self-loop. -/
theorem extList_le_two_ecount_witness :
    (extList gTri covTri 0).length ≤ 2 * gTri.ecount ∧
      (Edge.mk 0 1).src ≠ (Edge.mk 0 1).tgt :=
  ⟨(extList_le_two_ecount_and_no_loop gTri covTri 0).1,
    (extList_le_two_ecount_and_no_loop gTri covTri 0).2 ⟨0, 1⟩ (by decide)⟩

/-- C3: on the single-isolated-vertex cover both `int(0)` and `ext(0)` are 0
and `conductance` evaluates `0/0`, which raises a `ZeroDivisionError`
(modelled `none`) instead of returning the NaN sentinel the spec demands. -/
theorem conductance_raises_on_isolated : conductance gSingle covSingle = none := by
  have h1 : List.range (Cover.k covSingle) = [0] := by decide
  have h2 : (extList gSingle covSingle 0).length = 0 := by decide
  have h3 : (inducedSubgraph gSingle covSingle 0).ecount = 0 := by decide
  simp [conductance, mapMO, pydiv, h1, h2, h3]

/-- C4: on the single-isolated-vertex cover `ext(0) = 0` and `separability`
evaluates `0/0`, which raises a `ZeroDivisionError` (modelled `none`)
instead of yielding the NaN sentinel the spec demands for the perfectly
separated case. -/
theorem separability_raises_on_isolated : separability gSingle covSingle = none := by
  decide

/-- C5: on `gIso` (vertex 0 isolated, one edge 1-2, singleton clusters) the
degree-0 vertex contributes the first, NaN, entry of the ratios list and
Python's `max` never replaces it, so `maximum_out_degree_fraction` returns
NaN for both clusters although each cluster holds a member whose ratio is 1
(the claim says NaN ratios are excluded from the maximum). -/
theorem maxOdf_nan_absorbs_max :
    maximumOutDegreeFraction gIso covIso = some [none, none] := rfl

/-- C10: every edge of cluster `i`'s boundary collection has an endpoint
whose membership list holds `i`, the attribution rule (source if member,
else target) credits it to a vertex that is a member of cluster `i`, and a
vertex outside the cluster never accumulates a nonzero boundary-edge
count. -/
theorem boundary_attribution_invariant (g : Graph) (cov : Cover) (i : Nat) :
    (∀ e ∈ extList g cov i,
        (i ∈ cov.membership e.src ∨ i ∈ cov.membership e.tgt) ∧
          i ∈ cov.membership (attribNode cov i e)) ∧
      ∀ v : Nat, i ∉ cov.membership v → extEdgePerNode g cov i v = 0 := by
  constructor
  · intro e he
    have h2 := attribNode_mem he
    rw [extList_eq_specBoundary] at he
    obtain ⟨-, hm⟩ := mem_specBoundary he
    exact ⟨hm.imp id And.right, h2⟩
  · exact fun v => extEdgePerNode_eq_zero

/-- Witness for C10 at the triangle: edge (0,1) lies in cluster 0's boundary
list and is credited to a member, and non-member vertex 2 accumulates no
boundary credit for cluster 0. -/
theorem boundary_attribution_witness :
    ((0 ∈ covTri.membership (Edge.mk 0 1).src ∨ 0 ∈ covTri.membership (Edge.mk 0 1).tgt) ∧
        0 ∈ covTri.membership (attribNode covTri 0 ⟨0, 1⟩)) ∧
      extEdgePerNode gTri covTri 0 2 = 0 :=
  ⟨(boundary_attribution_invariant gTri covTri 0).1 ⟨0, 1⟩ (by decide),
    (boundary_attribution_invariant gTri covTri 0).2 2 (by decide)⟩

/-- C6 counterexample: on the path 0-1-2 with clusters `{0,1}` and `{0}`,
the doubly-appended crossing edge (0,1) is credited twice to vertex 0, whose
ratio becomes 2, and `average_out_degree_fraction` returns 5/4 > 1 for
cluster 0 even though its vertices all have nonzero degree; and on a cover
with an empty cluster `flake_out_degree_fraction` divides by 0 and raises
(modelled `none`) instead of lying in [0,1], while
`average_out_degree_fraction` returns the NaN numpy scalar of 0/0, which
does not lie in [0,1] either. -/
theorem avgOdf_exceeds_one_flake_raises :
    averageOutDegreeFraction gPath3 covPath3 = [NpVal.fin (5 / 4), NpVal.fin 1] ∧
      ¬ ((5 : ℚ) / 4 ≤ 1) ∧
      (0 ∈ covPath3.cluster 0 ∧ gPath3.degree 0 ≠ 0) ∧
      flakeOutDegreeFraction gPath3 ⟨[[]]⟩ = none ∧
      averageOutDegreeFraction gPath3 ⟨[[]]⟩ = [NpVal.nan] := by
  have h2 : List.range gPath3.n = [0, 1, 2] := by decide
  have d0 : gPath3.degree 0 = 1 := by decide
  have d1 : gPath3.degree 1 = 2 := by decide
  have d2 : gPath3.degree 2 = 1 := by decide
  refine ⟨?_, by norm_num, by decide, rfl, ?_⟩
  · have h1 : List.range (Cover.k covPath3) = [0, 1] := by decide
    have e00 : extEdgePerNode gPath3 covPath3 0 0 = 2 := by decide
    have e01 : extEdgePerNode gPath3 covPath3 0 1 = 1 := by decide
    have e02 : extEdgePerNode gPath3 covPath3 0 2 = 0 := by decide
    have e10 : extEdgePerNode gPath3 covPath3 1 0 = 1 := by decide
    have e11 : extEdgePerNode gPath3 covPath3 1 1 = 0 := by decide
    have e12 : extEdgePerNode gPath3 covPath3 1 2 = 0 := by decide
    have s0 : (inducedSubgraph gPath3 covPath3 0).n = 2 := by decide
    have s1 : (inducedSubgraph gPath3 covPath3 1).n = 1 := by decide
    simp [averageOutDegreeFraction, npdiv, nansum, odfRatios, h1, h2,
      e00, e01, e02, e10, e11, e12, d0, d1, d2, s0, s1]
    norm_num
  · have hk : List.range (Cover.k (⟨[[]]⟩ : Cover)) = [0] := by decide
    have f0 : extEdgePerNode gPath3 ⟨[[]]⟩ 0 0 = 0 := by decide
    have f1 : extEdgePerNode gPath3 ⟨[[]]⟩ 0 1 = 0 := by decide
    have f2 : extEdgePerNode gPath3 ⟨[[]]⟩ 0 2 = 0 := by decide
    have sz : (inducedSubgraph gPath3 (⟨[[]]⟩ : Cover) 0).n = 0 := by decide
    simp [averageOutDegreeFraction, npdiv, nansum, odfRatios, hk, h2,
      f0, f1, f2, d0, d1, d2, sz]

/-- C6 (amended): whenever at least one vertex of cluster `i` has nonzero
degree, `average_out_degree_fraction`'s value for cluster `i` is a finite
number in [0,2] — the double-appended boundary entries can push a vertex
ratio up to 2 — and whenever `flake_out_degree_fraction` returns (all
clusters nonempty), every cluster's value lies in [0,1]. -/
theorem avgOdf_flakeOdf_bounds (g : Graph) (cov : Cover) (i : Nat) :
    ((∃ v ∈ cov.cluster i, g.degree v ≠ 0) → i < cov.k →
        ∃ q : ℚ, (averageOutDegreeFraction g cov).getD i NpVal.nan = NpVal.fin q ∧
          0 ≤ q ∧ q ≤ 2) ∧
      (∀ l : List ℚ, flakeOutDegreeFraction g cov = some l → i < cov.k →
        0 ≤ l.getD i 0 ∧ l.getD i 0 ≤ 1) := by
  have hn : (inducedSubgraph g cov i).n = cov.size i := rfl
  constructor
  · rintro ⟨v, hv, -⟩ hi
    have hsz : cov.size i ≠ 0 := by
      unfold Cover.size
      intro h0
      rw [List.length_eq_zero] at h0
      rw [h0] at hv
      exact absurd hv (List.not_mem_nil v)
    have hsize : (0 : ℚ) < ((inducedSubgraph g cov i).n : ℚ) := by
      rw [hn]
      exact_mod_cast Nat.pos_of_ne_zero hsz
    unfold averageOutDegreeFraction
    rw [getD_map_range _ hi]
    refine ⟨nansum (odfRatios g cov i) / ((inducedSubgraph g cov i).n : ℚ), ?_, ?_, ?_⟩
    · unfold npdiv
      rw [if_neg (ne_of_gt hsize)]
    · exact div_nonneg (nansum_odfRatios_nonneg g cov i) (le_of_lt hsize)
    · rw [div_le_iff₀ hsize]
      calc nansum (odfRatios g cov i) ≤ 2 * (memberCount g cov i : ℚ) :=
            nansum_odfRatios_le g cov i
        _ ≤ 2 * ((inducedSubgraph g cov i).n : ℚ) := by
            rw [hn]
            have hc : (memberCount g cov i : ℚ) ≤ (cov.size i : ℚ) := by
              exact_mod_cast memberCount_le_size g cov i
            linarith
  · intro l hl hi
    have h := mapMO_range_getD hl hi 0
    obtain ⟨hne, hval⟩ := pydiv_eq_some.1 h
    have hsize : (0 : ℚ) < ((inducedSubgraph g cov i).n : ℚ) := by
      rcases Nat.eq_zero_or_pos (inducedSubgraph g cov i).n with h0 | h0
      · exact absurd (by rw [h0]; norm_num) hne
      · exact_mod_cast h0
    rw [hval]
    refine ⟨div_nonneg (by positivity) (le_of_lt hsize), ?_⟩
    rw [div_le_one hsize, hn]
    calc ((((List.range g.n).filter (fun v =>
            decide ((g.degree v : ℚ) / 2 < (extEdgePerNode g cov i v : ℚ)))).length : ℚ))
        ≤ (memberCount g cov i : ℚ) := by
          exact_mod_cast flakeCount_le_memberCount g cov i
      _ ≤ (cov.size i : ℚ) := by exact_mod_cast memberCount_le_size g cov i

/-- Witness for C6 (amended): on `gIso` cluster 0 = {1} holds a
nonzero-degree vertex, so its average-ODF value is a finite number in [0,2];
and on the single-vertex cover flake-ODF returns [0], inside [0,1]. -/
theorem avgOdf_flakeOdf_bounds_witness :
    (∃ q : ℚ, (averageOutDegreeFraction gIso covIso).getD 0 NpVal.nan = NpVal.fin q ∧
        0 ≤ q ∧ q ≤ 2) ∧
      (0 ≤ ([0] : List ℚ).getD 0 0 ∧ ([0] : List ℚ).getD 0 0 ≤ 1) := by
  have h1 : List.range (Cover.k covSingle) = [0] := by decide
  have h2 : List.range gSingle.n = [0] := by decide
  have hd : gSingle.degree 0 = 0 := by decide
  have hs : (inducedSubgraph gSingle covSingle 0).n = 1 := by decide
  have he : extEdgePerNode gSingle covSingle 0 0 = 0 := by decide
  refine ⟨(avgOdf_flakeOdf_bounds gIso covIso 0).1 ⟨1, by decide, by decide⟩ (by decide),
    (avgOdf_flakeOdf_bounds gSingle covSingle 0).2 [0] ?_ (by decide)⟩
  simp [flakeOutDegreeFraction, mapMO, pydiv, h1, h2, hd, hs, he]

/-- C7: whenever both functions return, `normalized_cut(i)` equals
`conductance(i)` plus `ext(i) / (2*(E - int(i)) + ext(i))`. -/
theorem normalizedCut_eq_conductance_add (g : Graph) (cov : Cover) (i : Nat)
    (c l : List ℚ) (hc : conductance g cov = some c) (hl : normalizedCut g cov = some l)
    (hi : i < cov.k) :
    l.getD i 0 = c.getD i 0 +
      ((extList g cov i).length : ℚ) /
        (2 * ((g.ecount : ℚ) - ((inducedSubgraph g cov i).ecount : ℚ)) +
          ((extList g cov i).length : ℚ)) := by
  unfold normalizedCut at hl
  rw [hc] at hl
  have h := mapMO_range_getD hl hi 0
  rw [Option.map_eq_some'] at h
  obtain ⟨t, ht, hval⟩ := h
  obtain ⟨-, rfl⟩ := pydiv_eq_some.1 ht
  exact hval.symm

/-- Witness for C7 at the triangle cover: conductance is 2/3 per cluster and
normalized cut is 7/6 = 2/3 + 4/8 per cluster. -/
theorem normalizedCut_eq_conductance_add_witness :
    ([(7 : ℚ) / 6, 7 / 6] : List ℚ).getD 0 0 = ([(2 : ℚ) / 3, 2 / 3] : List ℚ).getD 0 0 +
      ((extList gTri covTri 0).length : ℚ) /
        (2 * ((gTri.ecount : ℚ) - ((inducedSubgraph gTri covTri 0).ecount : ℚ)) +
          ((extList gTri covTri 0).length : ℚ)) := by
  have h1 : List.range (Cover.k covTri) = [0, 1] := by decide
  have hx0 : (extList gTri covTri 0).length = 4 := by decide
  have hx1 : (extList gTri covTri 1).length = 4 := by decide
  have hi0 : (inducedSubgraph gTri covTri 0).ecount = 1 := by decide
  have hi1 : (inducedSubgraph gTri covTri 1).ecount = 1 := by decide
  have hec : gTri.ecount = 3 := by decide
  have hc : conductance gTri covTri = some [(2 : ℚ) / 3, 2 / 3] := by
    simp [conductance, mapMO, pydiv, h1, hx0, hx1, hi0, hi1]
    norm_num
  have hl : normalizedCut gTri covTri = some [(7 : ℚ) / 6, 7 / 6] := by
    rw [normalizedCut, hc]
    simp [mapMO, pydiv, h1, hx0, hx1, hi0, hi1, hec]
    norm_num
  exact normalizedCut_eq_conductance_add gTri covTri 0 _ _ hc hl (by decide)

theorem fullCover_membership {g : Graph} {v : Nat} (hv : v < g.n) :
    (fullCover g).membership v = [0] := by
  have h1 : List.range 1 = [0] := rfl
  simp [Cover.membership, Cover.k, fullCover, Cover.cluster, List.mem_range, hv, h1]

theorem fullCover_crossing {g : Graph} (hval : ∀ e ∈ g.edges, e.src < g.n ∧ e.tgt < g.n)
    {e : Edge} (he : e ∈ g.edges) : (fullCover g).crossing e = false := by
  unfold Cover.crossing
  rw [decide_eq_false_iff_not]
  intro h
  exact h (by rw [fullCover_membership (hval e he).1, fullCover_membership (hval e he).2])

theorem fullCover_externalEdges {g : Graph}
    (hval : ∀ e ∈ g.edges, e.src < g.n ∧ e.tgt < g.n) :
    externalEdges g (fullCover g) = [[]] := by
  unfold externalEdges
  have hf : g.edges.filter (fun e => (fullCover g).crossing e) = [] := by
    rw [List.filter_eq_nil_iff]
    intro e he
    simp [fullCover_crossing hval he]
  rw [hf, List.foldl_nil]
  rfl

theorem fullCover_int {g : Graph} (hval : ∀ e ∈ g.edges, e.src < g.n ∧ e.tgt < g.n) :
    (inducedSubgraph g (fullCover g) 0).ecount = g.ecount := by
  have hf : g.edges.filter (fun e =>
      decide (e.src ∈ (fullCover g).cluster 0) && decide (e.tgt ∈ (fullCover g).cluster 0)) =
        g.edges := by
    rw [List.filter_eq_self]
    intro e he
    simp [Cover.cluster, fullCover, List.mem_range, (hval e he).1, (hval e he).2]
  unfold inducedSubgraph Graph.ecount
  rw [List.length_map, hf]

/-- C8 (amended): for every graph with at least one vertex, valid edge
endpoints and the single full cover: the boundary collection is empty,
expansion is 0, cut ratio raises (denominator `size*(N-size) = 0`, modelled
`none`), separability raises (`ext = 0`), and conductance is 0 whenever the
graph has an edge but raises the 0/0 case on an edgeless graph. -/
theorem fullCover_metrics (g : Graph) (hval : ∀ e ∈ g.edges, e.src < g.n ∧ e.tgt < g.n)
    (hn : 1 ≤ g.n) :
    extList g (fullCover g) 0 = [] ∧
      expansion g (fullCover g) = some [0] ∧
      cutRatio g (fullCover g) = none ∧
      separability g (fullCover g) = none ∧
      (g.edges ≠ [] → conductance g (fullCover g) = some [0]) ∧
      (g.edges = [] → conductance g (fullCover g) = none) := by
  have hx : extList g (fullCover g) 0 = [] := by
    unfold extList
    rw [fullCover_externalEdges hval]
    rfl
  have hk : List.range (Cover.k (fullCover g)) = [0] := rfl
  have hs : Cover.size (fullCover g) 0 = g.n := by
    simp [Cover.size, Cover.cluster, fullCover]
  refine ⟨hx, ?_, ?_, ?_, ?_, ?_⟩
  · have hnz : ((g.n : ℚ)) ≠ 0 := Nat.cast_ne_zero.2 (by omega)
    simp [expansion, mapMO, hk, hx, hs, pydiv, hnz]
  · simp [cutRatio, mapMO, hk, hx, hs, pydiv, sub_self]
  · simp [separability, mapMO, hk, hx, pydiv]
  · intro hne
    have hint := fullCover_int hval
    have hE : g.ecount ≠ 0 := by
      simpa [Graph.ecount, List.length_eq_zero] using hne
    simp [conductance, mapMO, hk, hx, pydiv, hint, hE,
      mul_ne_zero two_ne_zero (Nat.cast_ne_zero.2 hE)]
  · intro hemp
    have hint := fullCover_int hval
    have hE : g.ecount = 0 := by simp [Graph.ecount, hemp]
    simp [conductance, mapMO, hk, hx, pydiv, hint, hE]

/-- Witness for C8 (amended) on a single undirected edge with the full
cover. -/
theorem fullCover_metrics_witness :
    extList gEdge2 (fullCover gEdge2) 0 = [] ∧
      expansion gEdge2 (fullCover gEdge2) = some [0] ∧
      cutRatio gEdge2 (fullCover gEdge2) = none ∧
      separability gEdge2 (fullCover gEdge2) = none ∧
      conductance gEdge2 (fullCover gEdge2) = some [0] := by
  have h := fullCover_metrics gEdge2 (by decide) (by decide)
  exact ⟨h.1, h.2.1, h.2.2.1, h.2.2.2.1, h.2.2.2.2.1 (by decide)⟩

/-- C8 counterexample: on the single isolated vertex with the full cover,
conductance raises the 0/0 division error (modelled `none`) instead of being
0; and on the empty graph with the full (empty) cover, expansion raises
instead of being 0. -/
theorem fullCover_counterexample :
    conductance gSingle (fullCover gSingle) = none ∧
      expansion gNone (fullCover gNone) = none := by
  constructor
  · have h1 : List.range (Cover.k (fullCover gSingle)) = [0] := by decide
    have h2 : (extList gSingle (fullCover gSingle) 0).length = 0 := by decide
    have h3 : (inducedSubgraph gSingle (fullCover gSingle) 0).ecount = 0 := by decide
    simp [conductance, mapMO, pydiv, h1, h2, h3]
  · decide

/-- C9: with an unchanged graph and cover, a second `compute_metrics` run —
which reuses the graph-metrics cache attached by the first run
(`refresh=False`) — reproduces exactly the first run's report. -/
theorem computeMetrics_deterministic (g : Graph) (cov : Cover)
    (cache : Option GraphMetrics) :
    (computeMetrics g cov (computeMetrics g cov cache).2).1 =
      (computeMetrics g cov cache).1 := by
  cases cache <;> rfl

end Circulo

